import Mathlib

/-!
Shallow embedding of `nuscale_senior_design.py`: a continuous-source
radioactive-decay simulation with spectral binning and downsampled output.
The decay solver (the `radioactivedecay` package) is an external collaborator
and is modelled as an abstract oracle function on inventories; machine floats
are modelled as exact rationals; the two CSV sinks are modelled structurally
(lists of rows) since serialization is outside the core.
-/

abbrev NuclideId := String

abbrev Inventory := List (NuclideId × ℚ)

abbrev Snapshot := List (NuclideId × ℚ)

abbrev GammaYieldTable := List (NuclideId × List (ℚ × ℚ))

/-- Association-list lookup with decidable string equality (Python dict access). -/
def alookup {β : Type} (n : NuclideId) : List (NuclideId × β) → Option β
  | [] => none
  | (k, v) :: rest => if n = k then some v else alookup n rest

/-- Python dict assignment `inv[n] = a`: replace the binding if present, else append. -/
def setAct (n : NuclideId) (a : ℚ) : Inventory → Inventory
  | [] => [(n, a)]
  | (k, v) :: rest => if n = k then (n, a) :: rest else (k, v) :: setAct n a rest

/-- `decayed.add(source_per_timestep, 'Bq')` (line 99): add the per-step dose
activities into the inventory, nuclide by nuclide. -/
def addInv (inv src : Inventory) : Inventory :=
  src.foldl (fun acc p => setAct p.1 ((alookup p.1 acc).getD 0 + p.2) acc) inv

/-- `source_per_timestep` (lines 77-80): each rate times the timestep multiplier,
computed once before the loop. -/
def sourcePerTimestep (src : List (NuclideId × ℚ)) (multiplier : ℚ) : Inventory :=
  src.map (fun p => (p.1, p.2 * multiplier))

/-- `steps = 5.256E6` (line 73). -/
def configSteps : ℚ := 5256000

/-- `output_rows = 5000` (line 74). -/
def configOutputRows : ℕ := 5000

/-- `x = math.floor(steps / output_rows)` (line 92). -/
def sampleInterval (steps : ℚ) (output_rows : ℕ) : ℤ :=
  ⌊steps / (output_rows : ℚ)⌋

/-- The six gamma-energy accumulation bins, `bins = [0, 0, 0, 0, 0, 0]` (line 94). -/
structure Bins where
  b0 : ℚ
  b1 : ℚ
  b2 : ℚ
  b3 : ℚ
  b4 : ℚ
  b5 : ℚ
deriving DecidableEq, Repr

def zeroBins : Bins := ⟨0, 0, 0, 0, 0, 0⟩

def Bins.get (b : Bins) (k : Fin 6) : ℚ :=
  match k with
  | ⟨0, _⟩ => b.b0
  | ⟨1, _⟩ => b.b1
  | ⟨2, _⟩ => b.b2
  | ⟨3, _⟩ => b.b3
  | ⟨4, _⟩ => b.b4
  | ⟨5, _⟩ => b.b5
  | ⟨m + 6, h⟩ => absurd h (by omega)

def Bins.total (b : Bins) : ℚ := b.b0 + b.b1 + b.b2 + b.b3 + b.b4 + b.b5

/-- Lines 110-121: the if/elif cascade that adds one contribution `c` (an
activity times an emission probability) at energy `e` into the bins. -/
def addGamma (b : Bins) (e c : ℚ) : Bins :=
  if e < 1 then { b with b0 := b.b0 + c }
  else if e < 2 then { b with b1 := b.b1 + c }
  else if e < 3 then { b with b2 := b.b2 + c }
  else if e < 4 then { b with b3 := b.b3 + c }
  else if e < 5 then { b with b4 := b.b4 + c }
  else { b with b5 := b.b5 + c }

/-- Run-aborting faults of the Python loop: `ZeroDivisionError` from `i % x`
with `x = 0`, and `KeyError` from `nuclide_data[nuclide]`. -/
inductive Fault where
  | zeroDivision : Fault
  | keyError : NuclideId → Fault
deriving DecidableEq, Repr

/-- `nuclide_list.add(nuclide)` (line 103): Python set insertion, modelled as a
duplicate-free list in insertion order. -/
def insertIfAbsent (nl : List NuclideId) (n : NuclideId) : List NuclideId :=
  if n ∈ nl then nl else nl ++ [n]

/-- The mutable state threaded through the stepping loop (lines 84-92):
the current inventory, the rows accumulated into the `output` string, the
rows last written to `decay.csv` (`none` before the first write), the
per-materialized-row snapshots (newest first), and `nuclide_list`. -/
structure SimState where
  inventory : Inventory
  output : List (ℕ × Bins)
  file : Option (List (ℕ × Bins))
  contributions : List Snapshot
  nuclideList : List NuclideId
deriving DecidableEq, Repr

def initState : SimState := ⟨[], [], none, [], []⟩

/-- Lines 102-121: the `for nuclide in numbers.keys()` loop. For each nuclide:
add it to `nuclide_list`, look up its gamma table entry (KeyError if absent),
record its activity into the newest snapshot when the step is materialized, and
accumulate its gamma contributions into the bins. -/
def processNuclides (table : GammaYieldTable) (mat : Bool) :
    List (NuclideId × ℚ) → List NuclideId → List Snapshot → Bins →
    Except Fault (List NuclideId × List Snapshot × Bins)
  | [], nl, cs, bins => .ok (nl, cs, bins)
  | (n, a) :: rest, nl, cs, bins =>
    match alookup n table with
    | none => .error (.keyError n)
    | some gammas =>
      processNuclides table mat rest (insertIfAbsent nl n)
        (if mat then cs.modifyHead (fun s => (n, a) :: s) else cs)
        (gammas.foldl (fun b p => addGamma b p.1 (a * p.2)) bins)

/-- One iteration of the `while i < steps` loop body (lines 93-127).
`i % x` with `x = 0` is Python's `ZeroDivisionError`; a materialized step
(`i % x == 0`) appends a fresh snapshot, and after binning appends the row
`(i, bins)` to the output and rewrites the whole file with it. -/
def simStep (table : GammaYieldTable) (oracle : Inventory → Inventory)
    (source : Inventory) (x : ℤ) (i : ℕ) (st : SimState) :
    Except Fault SimState :=
  if x = 0 then .error .zeroDivision
  else
    match processNuclides table (decide ((i : ℤ) % x = 0))
        (oracle (addInv st.inventory source)) st.nuclideList
        (if (i : ℤ) % x = 0 then ([] : Snapshot) :: st.contributions
         else st.contributions)
        zeroBins with
    | .error f => .error f
    | .ok (nl2, cs2, bins) =>
      .ok { inventory := oracle (addInv st.inventory source),
            output := if (i : ℤ) % x = 0 then st.output ++ [(i, bins)]
                      else st.output,
            file := if (i : ℤ) % x = 0 then some (st.output ++ [(i, bins)])
                    else st.file,
            contributions := cs2, nuclideList := nl2 }

/-- The `while i < steps` loop (lines 93-128): the integer counter `i` is
compared against the rational `steps` bound at every iteration. -/
def simRun (table : GammaYieldTable) (oracle : Inventory → Inventory)
    (source : Inventory) (steps : ℚ) (x : ℤ) (i : ℕ) (st : SimState) :
    Except Fault SimState :=
  if h : (i : ℚ) < steps then
    match simStep table oracle source x i st with
    | .error f => .error f
    | .ok st2 => simRun table oracle source steps x (i + 1) st2
  else .ok st
termination_by ⌈steps⌉₊ - i
decreasing_by
  have hi : i < ⌈steps⌉₊ := Nat.lt_ceil.mpr h
  omega

/-- The number of iterations the loop `while i < steps: i += 1` performs when
entered with counter value `i`. -/
def loopCount (steps : ℚ) (i : ℕ) : ℕ :=
  if h : (i : ℚ) < steps then loopCount steps (i + 1) + 1 else 0
termination_by ⌈steps⌉₊ - i
decreasing_by
  have hi : i < ⌈steps⌉₊ := Nat.lt_ceil.mpr h
  omega

/-- Lines 129-141: the final `nuclide_contributions.csv` writer. One column per
nuclide of `nuclide_list`; one data row per snapshot in run order, each cell
the snapshot's activity for that column's nuclide, or `0` when absent. -/
def denseTable (nl : List NuclideId) (contribs : List Snapshot) : List (List ℚ) :=
  contribs.reverse.map (fun s => nl.map (fun n => (alookup n s).getD 0))

/-- Every nuclide mentioned by any recorded snapshot is in `nuclide_list`. -/
def snapshotKeysSubset (st : SimState) : Prop :=
  ∀ s ∈ st.contributions, ∀ p ∈ s, p.1 ∈ st.nuclideList

/-- Durability invariant for `decay.csv`: the file holds exactly the rows
accumulated so far, or nothing has been written yet and no row exists. -/
def flushed (st : SimState) : Prop :=
  st.file = some st.output ∨ (st.file = none ∧ st.output = [])

/-- Modelled from the spec: the six half-open energy ranges
[0,1), [1,2), [2,3), [3,4), [4,5), [5,∞), a boundary belonging to the upper
bin. Stated independently of the code's cascade, for comparison with it. -/
def energyInSpecBin (k : Fin 6) (e : ℚ) : Prop :=
  (k.val : ℚ) ≤ e ∧ (k.val < 5 → e < (k.val : ℚ) + 1)

/-- Total activity of an inventory: the sum of all recorded activities. -/
def totalActivity (inv : Inventory) : ℚ := (inv.map Prod.snd).sum

/-- The one-step inventory recurrence of the loop body (lines 99-100): inject
the per-step dose, then advance one quantum through the decay oracle. -/
def invRecurrence (oracle : Inventory → Inventory) (source : Inventory)
    (inv : Inventory) : Inventory :=
  oracle (addInv inv source)

/-! ## Concrete fixtures for evaluating the embedding -/

/-- A one-nuclide yield table: nuclide `A` emits a 1 MeV gamma per decay. -/
def cTable : GammaYieldTable := [("A", [(1, 1)])]

/-- A one-nuclide per-step dose of 1 Bq of `A`. -/
def cSource : Inventory := [("A", 1)]

/-- State after step 0 of the `cTable`/`cSource` run with a trivial oracle. -/
def cSt1 : SimState :=
  ⟨[("A", 1)], [(0, ⟨0, 1, 0, 0, 0, 0⟩)], some [(0, ⟨0, 1, 0, 0, 0, 0⟩)],
   [[("A", 1)]], ["A"]⟩

/-- State after step 1 (both steps materialized, `x = 1`). -/
def cSt2 : SimState :=
  ⟨[("A", 2)], [(0, ⟨0, 1, 0, 0, 0, 0⟩), (1, ⟨0, 2, 0, 0, 0, 0⟩)],
   some [(0, ⟨0, 1, 0, 0, 0, 0⟩), (1, ⟨0, 2, 0, 0, 0, 0⟩)],
   [[("A", 2)], [("A", 1)]], ["A"]⟩

/-- State after the non-materialized step 1 of the `x = 2` run. -/
def dSt2 : SimState :=
  ⟨[("A", 2)], [(0, ⟨0, 1, 0, 0, 0, 0⟩)], some [(0, ⟨0, 1, 0, 0, 0, 0⟩)],
   [[("A", 1)]], ["A"]⟩

/-- Final state of the `steps = 5/2`, `x = 2` run: three iterations ran. -/
def dSt3 : SimState :=
  ⟨[("A", 3)], [(0, ⟨0, 1, 0, 0, 0, 0⟩), (2, ⟨0, 3, 0, 0, 0, 0⟩)],
   some [(0, ⟨0, 1, 0, 0, 0, 0⟩), (2, ⟨0, 3, 0, 0, 0, 0⟩)],
   [[("A", 3)], [("A", 1)]], ["A"]⟩

/-! ## Unfolding lemmas for the well-founded loop definitions -/

lemma simRun_eq (table : GammaYieldTable) (oracle : Inventory → Inventory)
    (source : Inventory) (steps : ℚ) (x : ℤ) (i : ℕ) (st : SimState) :
    simRun table oracle source steps x i st =
      if (i : ℚ) < steps then
        match simStep table oracle source x i st with
        | .error f => .error f
        | .ok st2 => simRun table oracle source steps x (i + 1) st2
      else .ok st := by
  rw [simRun]
  rw [dite_eq_ite]

lemma simRun_stop {table : GammaYieldTable} {oracle : Inventory → Inventory}
    {source : Inventory} {steps : ℚ} {x : ℤ} {i : ℕ} {st : SimState}
    (h : ¬ (i : ℚ) < steps) :
    simRun table oracle source steps x i st = .ok st := by
  rw [simRun_eq, if_neg h]

lemma simRun_step {table : GammaYieldTable} {oracle : Inventory → Inventory}
    {source : Inventory} {steps : ℚ} {x : ℤ} {i : ℕ} {st st2 : SimState}
    (h : (i : ℚ) < steps) (hs : simStep table oracle source x i st = .ok st2) :
    simRun table oracle source steps x i st =
      simRun table oracle source steps x (i + 1) st2 := by
  rw [simRun_eq, if_pos h, hs]

lemma simRun_fault {table : GammaYieldTable} {oracle : Inventory → Inventory}
    {source : Inventory} {steps : ℚ} {x : ℤ} {i : ℕ} {st : SimState} {f : Fault}
    (h : (i : ℚ) < steps) (hs : simStep table oracle source x i st = .error f) :
    simRun table oracle source steps x i st = .error f := by
  rw [simRun_eq, if_pos h, hs]

lemma loopCount_eq (steps : ℚ) (i : ℕ) :
    loopCount steps i =
      if (i : ℚ) < steps then loopCount steps (i + 1) + 1 else 0 := by
  rw [loopCount]
  rw [dite_eq_ite]

/-- The while loop `while i < steps: i += 1`, entered at counter `i`, performs
`⌈steps⌉₊ - i` iterations: a ceiling, not a floor, when `steps` is fractional. -/
lemma loopCount_eq_ceil_sub (steps : ℚ) : ∀ i : ℕ, loopCount steps i = ⌈steps⌉₊ - i := by
  intro i
  by_cases h : (i : ℚ) < steps
  · have hi : i < ⌈steps⌉₊ := Nat.lt_ceil.mpr h
    have ih := loopCount_eq_ceil_sub steps (i + 1)
    rw [loopCount_eq, if_pos h, ih]
    omega
  · have hi : ⌈steps⌉₊ ≤ i := Nat.ceil_le.mpr (le_of_not_lt h)
    rw [loopCount_eq, if_neg h]
    omega
termination_by i => ⌈steps⌉₊ - i
decreasing_by
  have hi : i < ⌈steps⌉₊ := Nat.lt_ceil.mpr h
  omega

/-! ## Anatomy of a successful step -/

lemma simStep_ok_elim {table : GammaYieldTable} {oracle : Inventory → Inventory}
    {source : Inventory} {x : ℤ} {i : ℕ} {st st' : SimState}
    (hs : simStep table oracle source x i st = .ok st') :
    x ≠ 0 ∧ ∃ nl2 cs2 bins,
      processNuclides table (decide ((i : ℤ) % x = 0))
          (oracle (addInv st.inventory source)) st.nuclideList
          (if (i : ℤ) % x = 0 then ([] : Snapshot) :: st.contributions
           else st.contributions)
          zeroBins = .ok (nl2, cs2, bins) ∧
      st' = { inventory := oracle (addInv st.inventory source),
              output := if (i : ℤ) % x = 0 then st.output ++ [(i, bins)]
                        else st.output,
              file := if (i : ℤ) % x = 0 then some (st.output ++ [(i, bins)])
                      else st.file,
              contributions := cs2, nuclideList := nl2 } := by
  unfold simStep at hs
  split at hs
  · exact absurd hs (by simp)
  · rename_i hx
    refine ⟨hx, ?_⟩
    cases hpn : processNuclides table (decide ((i : ℤ) % x = 0))
        (oracle (addInv st.inventory source)) st.nuclideList
        (if (i : ℤ) % x = 0 then ([] : Snapshot) :: st.contributions
         else st.contributions)
        zeroBins with
    | error f => rw [hpn] at hs; exact absurd hs (by simp)
    | ok triple =>
      obtain ⟨nl2, cs2, bins⟩ := triple
      rw [hpn] at hs
      simp only [Except.ok.injEq] at hs
      exact ⟨nl2, cs2, bins, rfl, hs.symm⟩

lemma simStep_ok_inventory {table : GammaYieldTable}
    {oracle : Inventory → Inventory} {source : Inventory} {x : ℤ} {i : ℕ}
    {st st' : SimState} (hs : simStep table oracle source x i st = .ok st') :
    st'.inventory = invRecurrence oracle source st.inventory := by
  obtain ⟨-, nl2, cs2, bins, -, hst⟩ := simStep_ok_elim hs
  rw [hst]
  rfl

/-- A successful run applies the recurrence once per loop iteration. -/
lemma simRun_ok_inventory {table : GammaYieldTable}
    {oracle : Inventory → Inventory} {source : Inventory} {steps : ℚ} {x : ℤ} :
    ∀ (n i : ℕ) (st st' : SimState), ⌈steps⌉₊ - i ≤ n →
      simRun table oracle source steps x i st = .ok st' →
      st'.inventory =
        (invRecurrence oracle source)^[loopCount steps i] st.inventory := by
  intro n
  induction n with
  | zero =>
    intro i st st' hn hr
    have h : ¬ (i : ℚ) < steps := by
      intro h
      have := Nat.lt_ceil.mpr h
      omega
    rw [simRun_stop h] at hr
    simp only [Except.ok.injEq] at hr
    rw [loopCount_eq, if_neg h, ← hr]
    rfl
  | succ n ih =>
    intro i st st' hn hr
    by_cases h : (i : ℚ) < steps
    · cases hs : simStep table oracle source x i st with
      | error f => rw [simRun_fault h hs] at hr; exact absurd hr (by simp)
      | ok st2 =>
        rw [simRun_step h hs] at hr
        have hi : i < ⌈steps⌉₊ := Nat.lt_ceil.mpr h
        have h2 := ih (i + 1) st2 st' (by omega) hr
        rw [loopCount_eq, if_pos h, Function.iterate_succ_apply,
          ← simStep_ok_inventory hs, h2]
    · rw [simRun_stop h] at hr
      simp only [Except.ok.injEq] at hr
      rw [loopCount_eq, if_neg h, ← hr]
      rfl

/-- Invariants preserved by every successful step are preserved by a run. -/
lemma simRun_preserves {table : GammaYieldTable}
    {oracle : Inventory → Inventory} {source : Inventory} {steps : ℚ} {x : ℤ}
    (P : SimState → Prop)
    (hstep : ∀ i st st', P st →
      simStep table oracle source x i st = .ok st' → P st') :
    ∀ (n i : ℕ) (st st' : SimState), ⌈steps⌉₊ - i ≤ n → P st →
      simRun table oracle source steps x i st = .ok st' → P st' := by
  intro n
  induction n with
  | zero =>
    intro i st st' hn hP hr
    have h : ¬ (i : ℚ) < steps := by
      intro h
      have := Nat.lt_ceil.mpr h
      omega
    rw [simRun_stop h] at hr
    simp only [Except.ok.injEq] at hr
    rw [← hr]
    exact hP
  | succ n ih =>
    intro i st st' hn hP hr
    by_cases h : (i : ℚ) < steps
    · cases hs : simStep table oracle source x i st with
      | error f => rw [simRun_fault h hs] at hr; exact absurd hr (by simp)
      | ok st2 =>
        rw [simRun_step h hs] at hr
        have hi : i < ⌈steps⌉₊ := Nat.lt_ceil.mpr h
        exact ih (i + 1) st2 st' (by omega) (hstep i st st2 hP hs) hr
    · rw [simRun_stop h] at hr
      simp only [Except.ok.injEq] at hr
      rw [← hr]
      exact hP

/-! ## Bin cascade lemmas -/

lemma addGamma_total (b : Bins) (e c : ℚ) : (addGamma b e c).total = b.total + c := by
  unfold addGamma Bins.total
  split_ifs <;> dsimp <;> ring

lemma foldl_addGamma_total (gammas : List (ℚ × ℚ)) (a : ℚ) :
    ∀ b : Bins, (gammas.foldl (fun bb p => addGamma bb p.1 (a * p.2)) b).total =
      b.total + a * (gammas.map Prod.snd).sum := by
  induction gammas with
  | nil => intro b; simp
  | cons p rest ih =>
    intro b
    simp only [List.foldl_cons, List.map_cons, List.sum_cons, ih, addGamma_total]
    ring

/-! ## Nuclide-loop lemmas -/

lemma subset_insertIfAbsent (nl : List NuclideId) (n : NuclideId) :
    nl ⊆ insertIfAbsent nl n := by
  unfold insertIfAbsent
  split_ifs
  · exact List.Subset.refl nl
  · exact List.subset_append_left nl [n]

lemma mem_insertIfAbsent (nl : List NuclideId) (n : NuclideId) :
    n ∈ insertIfAbsent nl n := by
  unfold insertIfAbsent
  split_ifs with h
  · exact h
  · simp

lemma length_le_insertIfAbsent (nl : List NuclideId) (n : NuclideId) :
    nl.length ≤ (insertIfAbsent nl n).length := by
  unfold insertIfAbsent
  split_ifs <;> simp

lemma keys_modifyHead {cs : List Snapshot} {nl : List NuclideId}
    {n : NuclideId} {a : ℚ} (h : ∀ s ∈ cs, ∀ p ∈ s, p.1 ∈ nl) :
    ∀ s ∈ cs.modifyHead (fun s => (n, a) :: s), ∀ p ∈ s,
      p.1 ∈ insertIfAbsent nl n := by
  cases cs with
  | nil => simp [List.modifyHead]
  | cons c cst =>
    intro s hs p hp
    simp only [List.modifyHead_cons, List.mem_cons] at hs
    rcases hs with hs | hs
    · subst hs
      rcases List.mem_cons.mp hp with hp | hp
      · subst hp; exact mem_insertIfAbsent nl n
      · exact subset_insertIfAbsent nl n (h c (by simp) p hp)
    · exact subset_insertIfAbsent nl n (h s (by simp [hs]) p hp)

lemma processNuclides_growth {table : GammaYieldTable} {mat : Bool} :
    ∀ (entries : List (NuclideId × ℚ)) (nl : List NuclideId)
      (cs : List Snapshot) (bins : Bins)
      (nl2 : List NuclideId) (cs2 : List Snapshot) (bins2 : Bins),
      processNuclides table mat entries nl cs bins = .ok (nl2, cs2, bins2) →
      nl ⊆ nl2 ∧ nl.length ≤ nl2.length ∧
        ((∀ s ∈ cs, ∀ p ∈ s, p.1 ∈ nl) → ∀ s ∈ cs2, ∀ p ∈ s, p.1 ∈ nl2) := by
  intro entries
  induction entries with
  | nil =>
    intro nl cs bins nl2 cs2 bins2 h
    simp only [processNuclides, Except.ok.injEq, Prod.mk.injEq] at h
    obtain ⟨h1, h2, -⟩ := h
    subst h1; subst h2
    exact ⟨List.Subset.refl nl, le_refl _, fun h => h⟩
  | cons q rest ih =>
    intro nl cs bins nl2 cs2 bins2 h
    obtain ⟨n, a⟩ := q
    simp only [processNuclides] at h
    cases hlk : alookup n table with
    | none => rw [hlk] at h; exact absurd h (by simp)
    | some gammas =>
      rw [hlk] at h
      obtain ⟨hsub, hlen, hkeys⟩ := ih _ _ _ _ _ _ h
      refine ⟨(subset_insertIfAbsent nl n).trans hsub,
        le_trans (length_le_insertIfAbsent nl n) hlen, fun hk => ?_⟩
      refine hkeys ?_
      cases mat with
      | false => exact fun s hs p hp => subset_insertIfAbsent nl n (hk s hs p hp)
      | true => exact keys_modifyHead hk

lemma processNuclides_missing {table : GammaYieldTable} {mat : Bool} :
    ∀ (entries : List (NuclideId × ℚ)) (nl : List NuclideId)
      (cs : List Snapshot) (bins : Bins) (n : NuclideId),
      (∃ a, (n, a) ∈ entries) → alookup n table = none →
      ∃ m, alookup m table = none ∧
        processNuclides table mat entries nl cs bins = .error (.keyError m) := by
  intro entries
  induction entries with
  | nil =>
    intro nl cs bins n hmem _
    obtain ⟨a, ha⟩ := hmem
    exact absurd ha (by simp)
  | cons q rest ih =>
    intro nl cs bins n hmem hnone
    obtain ⟨k, b⟩ := q
    cases hk : alookup k table with
    | none => exact ⟨k, hk, by simp [processNuclides, hk]⟩
    | some g =>
      obtain ⟨a, ha⟩ := hmem
      rcases List.mem_cons.mp ha with heq | hrest
      · exfalso
        have : n = k := by
          have := congrArg Prod.fst heq
          simpa using this
        rw [this, hk] at hnone
        exact absurd hnone (by simp)
      · obtain ⟨m, hm1, hm2⟩ :=
          ih (insertIfAbsent nl k)
            (if mat then cs.modifyHead (fun s => (k, b) :: s) else cs)
            (g.foldl (fun bb p => addGamma bb p.1 (b * p.2)) bins)
            n ⟨a, hrest⟩ hnone
        refine ⟨m, hm1, ?_⟩
        simp only [processNuclides]
        rw [hk]
        exact hm2

lemma processNuclides_single_yield {table : GammaYieldTable} {mat : Bool} :
    ∀ (entries : List (NuclideId × ℚ)) (nl : List NuclideId)
      (cs : List Snapshot) (bins : Bins),
      (∀ p ∈ entries, ∃ e : ℚ, alookup p.1 table = some [(e, 1)]) →
      ∃ nl2 cs2 bins2,
        processNuclides table mat entries nl cs bins = .ok (nl2, cs2, bins2) ∧
        bins2.total = bins.total + totalActivity entries := by
  intro entries
  induction entries with
  | nil =>
    intro nl cs bins _
    exact ⟨nl, cs, bins, rfl, by simp [totalActivity]⟩
  | cons q rest ih =>
    intro nl cs bins h
    obtain ⟨n, a⟩ := q
    obtain ⟨e, he⟩ := h (n, a) (by simp)
    obtain ⟨nl2, cs2, bins2, hok, htot⟩ :=
      ih (insertIfAbsent nl n)
        (if mat then cs.modifyHead (fun s => (n, a) :: s) else cs)
        ([(e, 1)].foldl (fun bb p => addGamma bb p.1 (a * p.2)) bins)
        (fun p hp => h p (by simp [hp]))
    refine ⟨nl2, cs2, bins2, ?_, ?_⟩
    · simp only [processNuclides]
      rw [he]
      exact hok
    rw [htot, foldl_addGamma_total]
    simp [totalActivity]
    ring

lemma energyInSpecBin_unique {k k' : Fin 6} {e : ℚ}
    (h1 : energyInSpecBin k e) (h2 : energyInSpecBin k' e) : k = k' := by
  fin_cases k <;> fin_cases k' <;> simp_all [energyInSpecBin] <;> linarith

lemma exists_energyInSpecBin (e : ℚ) (he : 0 ≤ e) :
    ∃ k : Fin 6, energyInSpecBin k e := by
  by_cases h1 : e < 1
  · refine ⟨⟨0, by norm_num⟩, ?_, ?_⟩ <;> push_cast <;> intros <;> linarith
  by_cases h2 : e < 2
  · refine ⟨⟨1, by norm_num⟩, ?_, ?_⟩ <;> push_cast <;> intros <;> linarith
  by_cases h3 : e < 3
  · refine ⟨⟨2, by norm_num⟩, ?_, ?_⟩ <;> push_cast <;> intros <;> linarith
  by_cases h4 : e < 4
  · refine ⟨⟨3, by norm_num⟩, ?_, ?_⟩ <;> push_cast <;> intros <;> linarith
  by_cases h5 : e < 5
  · refine ⟨⟨4, by norm_num⟩, ?_, ?_⟩ <;> push_cast <;> intros <;> linarith
  · refine ⟨⟨5, by norm_num⟩, by push_cast; linarith, fun h => absurd h (by norm_num)⟩

lemma addGamma_get_spec {e : ℚ} (b : Bins) (c : ℚ) (k : Fin 6)
    (hk : energyInSpecBin k e) :
    (addGamma b e c).get k = b.get k + c ∧
      ∀ j : Fin 6, j ≠ k → (addGamma b e c).get j = b.get j := by
  fin_cases k <;>
    simp only [energyInSpecBin] at hk <;>
    push_cast at hk <;>
    obtain ⟨hlo, hhi⟩ := hk
  · have h1 : e < 1 := by have := hhi (by norm_num); linarith
    rw [show addGamma b e c = { b with b0 := b.b0 + c } by simp [addGamma, h1]]
    exact ⟨rfl, by intro j hj; fin_cases j <;> simp_all <;> rfl⟩
  · have h2 : e < 2 := by have := hhi (by norm_num); linarith
    have h1 : ¬ e < 1 := by linarith
    rw [show addGamma b e c = { b with b1 := b.b1 + c } by simp [addGamma, h1, h2]]
    exact ⟨rfl, by intro j hj; fin_cases j <;> simp_all <;> rfl⟩
  · have h3 : e < 3 := by have := hhi (by norm_num); linarith
    have h1 : ¬ e < 1 := by linarith
    have h2 : ¬ e < 2 := by linarith
    rw [show addGamma b e c = { b with b2 := b.b2 + c } by simp [addGamma, h1, h2, h3]]
    exact ⟨rfl, by intro j hj; fin_cases j <;> simp_all <;> rfl⟩
  · have h4 : e < 4 := by have := hhi (by norm_num); linarith
    have h1 : ¬ e < 1 := by linarith
    have h2 : ¬ e < 2 := by linarith
    have h3 : ¬ e < 3 := by linarith
    rw [show addGamma b e c = { b with b3 := b.b3 + c } by simp [addGamma, h1, h2, h3, h4]]
    exact ⟨rfl, by intro j hj; fin_cases j <;> simp_all <;> rfl⟩
  · have h5 : e < 5 := by have := hhi (by norm_num); linarith
    have h1 : ¬ e < 1 := by linarith
    have h2 : ¬ e < 2 := by linarith
    have h3 : ¬ e < 3 := by linarith
    have h4 : ¬ e < 4 := by linarith
    rw [show addGamma b e c = { b with b4 := b.b4 + c } by simp [addGamma, h1, h2, h3, h4, h5]]
    exact ⟨rfl, by intro j hj; fin_cases j <;> simp_all <;> rfl⟩
  · have h1 : ¬ e < 1 := by linarith
    have h2 : ¬ e < 2 := by linarith
    have h3 : ¬ e < 3 := by linarith
    have h4 : ¬ e < 4 := by linarith
    have h5 : ¬ e < 5 := by linarith
    rw [show addGamma b e c = { b with b5 := b.b5 + c } by simp [addGamma, h1, h2, h3, h4, h5]]
    exact ⟨rfl, by intro j hj; fin_cases j <;> simp_all <;> rfl⟩

/-! ## Dense-table lemmas -/

lemma denseTable_length (nl : List NuclideId) (contribs : List Snapshot) :
    (denseTable nl contribs).length = contribs.length := by
  simp [denseTable]

lemma denseTable_row_length {nl : List NuclideId} {contribs : List Snapshot}
    {r : List ℚ} (hr : r ∈ denseTable nl contribs) : r.length = nl.length := by
  simp only [denseTable, List.mem_map] at hr
  obtain ⟨s, -, hs⟩ := hr
  rw [← hs, List.length_map]

lemma denseTable_cell (nl : List NuclideId) (contribs : List Snapshot)
    (k j : ℕ) (hk : k < contribs.length) (hj : j < nl.length) :
    ((denseTable nl contribs).getD k []).getD j 0 =
      (alookup (nl.getD j "") (contribs.reverse.getD k [])).getD 0 := by
  have hk2 : k < contribs.reverse.length := by simpa using hk
  have hk3 : k < (denseTable nl contribs).length := by
    rw [denseTable_length]; exact hk
  rw [List.getD_eq_getElem _ _ hk3, List.getD_eq_getElem _ _ hk2,
    List.getD_eq_getElem _ _ hj]
  simp only [denseTable, List.getElem_map]
  have hj2 : j < (nl.map
      (fun n => (alookup n contribs.reverse[k]).getD 0)).length := by
    simpa using hj
  rw [List.getD_eq_getElem _ _ hj2, List.getElem_map]

/-! ## Evaluation of the concrete fixtures -/

lemma cstep0 : simStep cTable id cSource 1 0 initState = .ok cSt1 := by
  norm_num [simStep, processNuclides, addInv, alookup, setAct, insertIfAbsent,
    addGamma, zeroBins, initState, cTable, cSource, cSt1]

lemma cstep1 : simStep cTable id cSource 1 1 cSt1 = .ok cSt2 := by
  norm_num [simStep, processNuclides, addInv, alookup, setAct, insertIfAbsent,
    addGamma, zeroBins, cSt1, cTable, cSource, cSt2]

lemma crun2 : simRun cTable id cSource 2 1 0 initState = .ok cSt2 := by
  rw [simRun_step (by norm_num) cstep0, simRun_step (by norm_num) cstep1]
  exact simRun_stop (by norm_num)

lemma dstep0 : simStep cTable id cSource 2 0 initState = .ok cSt1 := by
  norm_num [simStep, processNuclides, addInv, alookup, setAct, insertIfAbsent,
    addGamma, zeroBins, initState, cTable, cSource, cSt1]

lemma dstep1 : simStep cTable id cSource 2 1 cSt1 = .ok dSt2 := by
  norm_num [simStep, processNuclides, addInv, alookup, setAct, insertIfAbsent,
    addGamma, zeroBins, cSt1, cTable, cSource, dSt2]

lemma dstep2 : simStep cTable id cSource 2 2 dSt2 = .ok dSt3 := by
  norm_num [simStep, processNuclides, addInv, alookup, setAct, insertIfAbsent,
    addGamma, zeroBins, dSt2, cTable, cSource, dSt3]

lemma drun : simRun cTable id cSource (5 / 2) 2 0 initState = .ok dSt3 := by
  rw [simRun_step (by norm_num) dstep0, simRun_step (by norm_num) dstep1,
    simRun_step (by norm_num) dstep2]
  exact simRun_stop (by norm_num)

/-! ## Claims -/

/-- Claim C1: at every step of the run — materialized or not — the next
inventory is the decay oracle applied for one quantum to the current inventory
plus the fixed per-step source dose, and a successful run of `n` loop
iterations is exactly the `n`-fold iterate of that recurrence, with the
identical dose injected each time. -/
theorem c1_markov_recurrence :
    (∀ (table : GammaYieldTable) (oracle : Inventory → Inventory)
       (source : Inventory) (x : ℤ) (i : ℕ) (st st' : SimState),
       simStep table oracle source x i st = .ok st' →
       st'.inventory = oracle (addInv st.inventory source)) ∧
    (∀ (table : GammaYieldTable) (oracle : Inventory → Inventory)
       (source : Inventory) (steps : ℚ) (x : ℤ) (i : ℕ) (st st' : SimState),
       simRun table oracle source steps x i st = .ok st' →
       st'.inventory =
         (invRecurrence oracle source)^[loopCount steps i] st.inventory) := by
  constructor
  · intro table oracle source x i st st' hs
    exact simStep_ok_inventory hs
  · intro table oracle source steps x i st st' hr
    exact simRun_ok_inventory (⌈steps⌉₊ - i) i st st' (le_refl _) hr

/-- Witness for C1: a concrete two-step run realizes the recurrence iterate. -/
theorem c1_markov_recurrence_witness :
    simRun cTable id cSource 2 1 0 initState = .ok cSt2 ∧
    cSt2.inventory =
      (invRecurrence id cSource)^[loopCount 2 0] initState.inventory :=
  ⟨crun2, c1_markov_recurrence.2 cTable id cSource 2 1 0 initState cSt2 crun2⟩

/-- Claim C2: the sampling interval is `x = ⌊steps / output_rows⌋`, a step of a
successful run appends an output row — carrying its true step index `i` — iff
`i % x = 0`, and for the configured `steps = 5256000`, `output_rows = 5000`
the interval is 1051, so the materialized step indices are exactly the
multiples of 1051 below the step count. -/
theorem c2_sampling_interval :
    sampleInterval configSteps configOutputRows = 1051 ∧
    (∀ (table : GammaYieldTable) (oracle : Inventory → Inventory)
       (source : Inventory) (x : ℤ) (i : ℕ) (st st' : SimState),
       simStep table oracle source x i st = .ok st' →
       ((∃ b : Bins, st'.output = st.output ++ [(i, b)]) ↔ (i : ℤ) % x = 0) ∧
       ((i : ℤ) % x ≠ 0 → st'.output = st.output)) ∧
    (∀ i : ℕ, i < 5256000 → ((i : ℤ) % 1051 = 0 ↔ 1051 ∣ i)) := by
  refine ⟨?_, ?_, ?_⟩
  · unfold sampleInterval configSteps configOutputRows
    rw [Int.floor_eq_iff] <;> norm_num
  · intro table oracle source x i st st' hs
    obtain ⟨-, nl2, cs2, bins, -, hst⟩ := simStep_ok_elim hs
    subst hst
    constructor
    · constructor
      · rintro ⟨b, hb⟩
        by_contra hmat
        rw [if_neg hmat] at hb
        have := congrArg List.length hb
        simp at this
      · intro hmat
        exact ⟨bins, by rw [if_pos hmat]⟩
    · intro hmat
      simp only [if_neg hmat]
  · intro i _
    omega

/-- Witness for C2: step 2102 is a materialized index (a multiple of 1051),
and the first step of a concrete run appends the row for index 0. -/
theorem c2_sampling_interval_witness :
    ((2102 : ℤ) % 1051 = 0 ↔ 1051 ∣ 2102) ∧
    ((∃ b : Bins, cSt1.output = initState.output ++ [(0, b)]) ↔
      (0 : ℤ) % 1 = 0) :=
  ⟨c2_sampling_interval.2.2 2102 (by norm_num),
   (c2_sampling_interval.2.1 cTable id cSource 1 0 initState cSt1 cstep0).1⟩

/-- Claim C3 (code bug): for `output_rows > steps` the computed sampling
interval is 0 — it is not clamped to 1 — and the very first loop iteration
faults with a division-by-zero at `i % x`, mid-run rather than at setup. -/
theorem c3_degenerate_interval_faults :
    sampleInterval 5 10 = 0 ∧
    simStep cTable id cSource (sampleInterval 5 10) 0 initState =
      .error .zeroDivision ∧
    simRun cTable id cSource 5 (sampleInterval 5 10) 0 initState =
      .error .zeroDivision := by
  have hx : sampleInterval 5 10 = 0 := by
    unfold sampleInterval
    rw [Int.floor_eq_iff] <;> norm_num
  refine ⟨hx, ?_, ?_⟩
  · rw [hx]
    simp [simStep]
  · rw [hx]
    exact simRun_fault (by norm_num) (by simp [simStep])

/-- Claim C4: a yield contribution `c` at energy `e ≥ 0` is added to exactly
one of the six bins — the one whose half-open spec range contains `e`, the
boundary belonging to the upper bin — and in particular an energy of exactly
1 MeV is added to the [1,2) bin and not to the [0,1) bin. -/
theorem c4_bin_assignment :
    (∀ (b : Bins) (e c : ℚ), 0 ≤ e →
      ∃! k : Fin 6, energyInSpecBin k e ∧
        (addGamma b e c).get k = b.get k + c ∧
        ∀ j : Fin 6, j ≠ k → (addGamma b e c).get j = b.get j) ∧
    (∀ (b : Bins) (c : ℚ),
      (addGamma b 1 c).b1 = b.b1 + c ∧ (addGamma b 1 c).b0 = b.b0) := by
  constructor
  · intro b e c he
    obtain ⟨k, hk⟩ := exists_energyInSpecBin e he
    obtain ⟨h1, h2⟩ := addGamma_get_spec b c k hk
    exact ⟨k, ⟨hk, h1, h2⟩, fun y hy => energyInSpecBin_unique hy.1 hk⟩
  · intro b c
    constructor <;> norm_num [addGamma]

/-- Witness for C4: the energy 3/2 MeV contribution goes into exactly one bin. -/
theorem c4_bin_assignment_witness :
    ∃! k : Fin 6, energyInSpecBin k (3 / 2 : ℚ) ∧
      (addGamma zeroBins (3 / 2) 2).get k = zeroBins.get k + 2 ∧
      ∀ j : Fin 6, j ≠ k →
        (addGamma zeroBins (3 / 2) 2).get j = zeroBins.get j :=
  c4_bin_assignment.1 zeroBins (3 / 2) 2 (by norm_num)

/-- Claim C5: the nuclide universe only grows across steps and runs, every
nuclide referenced by any recorded snapshot is in the universe at the end of a
run, and the emitted dense table has one numeric cell for every
(row, universe-nuclide) pair, an explicit 0 where the snapshot lacks the
nuclide. -/
theorem c5_universe_monotone :
    (∀ (table : GammaYieldTable) (oracle : Inventory → Inventory)
       (source : Inventory) (x : ℤ) (i : ℕ) (st st' : SimState),
       simStep table oracle source x i st = .ok st' →
       st.nuclideList ⊆ st'.nuclideList ∧
       st.nuclideList.length ≤ st'.nuclideList.length ∧
       (snapshotKeysSubset st → snapshotKeysSubset st')) ∧
    (∀ (table : GammaYieldTable) (oracle : Inventory → Inventory)
       (source : Inventory) (steps : ℚ) (x : ℤ) (st' : SimState),
       simRun table oracle source steps x 0 initState = .ok st' →
       snapshotKeysSubset st') ∧
    (∀ (nl : List NuclideId) (contribs : List Snapshot),
       (denseTable nl contribs).length = contribs.length ∧
       ∀ r ∈ denseTable nl contribs, r.length = nl.length) ∧
    (∀ (nl : List NuclideId) (contribs : List Snapshot) (k j : ℕ),
       k < contribs.length → j < nl.length →
       alookup (nl.getD j "") (contribs.reverse.getD k []) = none →
       ((denseTable nl contribs).getD k []).getD j 0 = 0) := by
  have hstep : ∀ (table : GammaYieldTable) (oracle : Inventory → Inventory)
      (source : Inventory) (x : ℤ) (i : ℕ) (st st' : SimState),
      simStep table oracle source x i st = .ok st' →
      st.nuclideList ⊆ st'.nuclideList ∧
      st.nuclideList.length ≤ st'.nuclideList.length ∧
      (snapshotKeysSubset st → snapshotKeysSubset st') := by
    intro table oracle source x i st st' hs
    obtain ⟨-, nl2, cs2, bins, hpn, hst⟩ := simStep_ok_elim hs
    obtain ⟨hsub, hlen, hkeys⟩ := processNuclides_growth _ _ _ _ _ _ _ hpn
    subst hst
    refine ⟨hsub, hlen, fun hsnap => ?_⟩
    intro s hs2 p hp
    refine hkeys ?_ s hs2 p hp
    intro s2 hs2' p2 hp2
    split at hs2'
    · rcases List.mem_cons.mp hs2' with h | h
      · subst h; exact absurd hp2 (by simp)
      · exact hsnap s2 h p2 hp2
    · exact hsnap s2 hs2' p2 hp2
  refine ⟨hstep, ?_, ?_, ?_⟩
  · intro table oracle source steps x st' hr
    refine simRun_preserves snapshotKeysSubset ?_ (⌈steps⌉₊) 0 initState st'
      (by omega) ?_ hr
    · intro i st st2 hP hs
      exact (hstep table oracle source x i st st2 hs).2.2 hP
    · intro s hs
      exact absurd hs (by simp [initState])
  · intro nl contribs
    exact ⟨denseTable_length nl contribs, fun r hr => denseTable_row_length hr⟩
  · intro nl contribs k j hk hj hnone
    rw [denseTable_cell nl contribs k j hk hj, hnone]
    rfl

/-- Witness for C5: the concrete two-step run's final snapshots reference only
universe nuclides. -/
theorem c5_universe_monotone_witness : snapshotKeysSubset cSt2 :=
  c5_universe_monotone.2.1 cTable id cSource 2 1 cSt2 crun2

/-- Claim C6: a step whose post-decay inventory contains a nuclide with no
gamma-yield entry aborts with a key-lookup (data-completeness) fault — it never
returns a successor state, so a missing yield is never treated as zero. -/
theorem c6_missing_yield_fails_fast :
    ∀ (table : GammaYieldTable) (oracle : Inventory → Inventory)
      (source : Inventory) (x : ℤ) (i : ℕ) (st : SimState)
      (n : NuclideId) (a : ℚ),
      x ≠ 0 →
      (n, a) ∈ oracle (addInv st.inventory source) →
      alookup n table = none →
      ∃ m, alookup m table = none ∧
        simStep table oracle source x i st = .error (.keyError m) := by
  intro table oracle source x i st n a hx hmem hnone
  obtain ⟨m, hm1, hm2⟩ := processNuclides_missing
    (oracle (addInv st.inventory source)) st.nuclideList
    (if (i : ℤ) % x = 0 then ([] : Snapshot) :: st.contributions
     else st.contributions)
    zeroBins n ⟨a, hmem⟩ hnone
  refine ⟨m, hm1, ?_⟩
  unfold simStep
  rw [if_neg hx, hm2]

/-- Witness for C6: with an empty yield table, the first step faults with a
key-lookup error instead of producing a state. -/
theorem c6_missing_yield_fails_fast_witness :
    ∃ m, alookup m ([] : GammaYieldTable) = none ∧
      simStep [] id cSource 1 0 initState = .error (.keyError m) :=
  c6_missing_yield_fails_fast [] id cSource 1 0 initState "A" 1
    (by norm_num)
    (by norm_num [addInv, alookup, setAct, cSource, initState])
    rfl

/-- Counterexample to C7: with the fractional configuration `steps = 5/2` the
loop executes three recurrence iterations — the inventory after the run is the
3-fold iterate value [("A", 3)] — whereas exactly `⌊5/2⌋ = 2` iterations would
leave [("A", 2)]; so the step count is not floor-coerced at load time. -/
theorem c7_floor_coercion_counterexample :
    Nat.floor (5 / 2 : ℚ) = 2 ∧
    simRun cTable id cSource (5 / 2) 2 0 initState = .ok dSt3 ∧
    dSt3.inventory = [("A", 3)] ∧
    (invRecurrence id cSource)^[Nat.floor (5 / 2 : ℚ)] initState.inventory =
      [("A", 2)] ∧
    dSt3.inventory ≠
      (invRecurrence id cSource)^[Nat.floor (5 / 2 : ℚ)] initState.inventory := by
  have hfl : Nat.floor (5 / 2 : ℚ) = 2 := by
    rw [Nat.floor_eq_iff] <;> norm_num
  have h2 : (invRecurrence id cSource)^[2] initState.inventory = [("A", 2)] := by
    norm_num [invRecurrence, addInv, alookup, setAct, cSource, initState,
      Function.iterate_succ_apply, Function.iterate_zero_apply]
  refine ⟨hfl, drun, rfl, by rw [hfl]; exact h2, ?_⟩
  rw [hfl, h2]
  intro h
  have := congrArg (fun l => alookup "A" l) h
  norm_num [alookup, dSt3] at this

/-- Claim C7 (amended): the code performs no floor coercion of the configured
step count; the loop compares the integer counter against the fractional bound
at every step, so exactly `⌈steps⌉` recurrence iterations are executed (which
coincides with `⌊steps⌋` for the integral shipped configuration). -/
theorem c7_ceil_iterations :
    (∀ steps : ℚ, loopCount steps 0 = ⌈steps⌉₊) ∧
    (∀ (table : GammaYieldTable) (oracle : Inventory → Inventory)
       (source : Inventory) (steps : ℚ) (x : ℤ) (st' : SimState),
       simRun table oracle source steps x 0 initState = .ok st' →
       st'.inventory =
         (invRecurrence oracle source)^[⌈steps⌉₊] initState.inventory) := by
  have h0 : ∀ steps : ℚ, loopCount steps 0 = ⌈steps⌉₊ := by
    intro steps
    rw [loopCount_eq_ceil_sub]
    omega
  refine ⟨h0, ?_⟩
  intro table oracle source steps x st' hr
  have h := simRun_ok_inventory (⌈steps⌉₊) 0 initState st' (by omega) hr
  rwa [h0] at h

/-- Witness for C7 (amended): the `steps = 5/2` run's final inventory is the
`⌈5/2⌉`-fold recurrence iterate. -/
theorem c7_ceil_iterations_witness :
    dSt3.inventory =
      (invRecurrence id cSource)^[⌈(5 / 2 : ℚ)⌉₊] initState.inventory :=
  c7_ceil_iterations.2 cTable id cSource (5 / 2) 2 dSt3 drun

/-- Claim C8: if every nuclide of the post-decay inventory has exactly one
yield entry with probability 1, the step succeeds and a materialized row's six
bins sum to the total activity of the inventory at that row — no contribution
is dropped or double-counted. -/
theorem c8_bin_conservation :
    ∀ (table : GammaYieldTable) (oracle : Inventory → Inventory)
      (source : Inventory) (x : ℤ) (i : ℕ) (st : SimState),
      x ≠ 0 →
      (∀ p ∈ oracle (addInv st.inventory source),
        ∃ e : ℚ, alookup p.1 table = some [(e, 1)]) →
      ∃ st', simStep table oracle source x i st = .ok st' ∧
        ((i : ℤ) % x = 0 → ∃ b : Bins,
          st'.output = st.output ++ [(i, b)] ∧
          b.total = totalActivity (oracle (addInv st.inventory source))) := by
  intro table oracle source x i st hx hyield
  obtain ⟨nl2, cs2, bins2, hok, htot⟩ := processNuclides_single_yield
    (oracle (addInv st.inventory source)) st.nuclideList
    (if (i : ℤ) % x = 0 then ([] : Snapshot) :: st.contributions
     else st.contributions)
    zeroBins hyield
  refine ⟨{ inventory := oracle (addInv st.inventory source),
            output := if (i : ℤ) % x = 0 then st.output ++ [(i, bins2)]
                      else st.output,
            file := if (i : ℤ) % x = 0 then some (st.output ++ [(i, bins2)])
                    else st.file,
            contributions := cs2, nuclideList := nl2 }, ?_, ?_⟩
  · unfold simStep
    rw [if_neg hx, hok]
  · intro hmat
    refine ⟨bins2, by simp only [if_pos hmat], ?_⟩
    rw [htot]
    simp [zeroBins, Bins.total]

/-- Witness for C8: in the concrete single-yield run, the first materialized
row's bins sum to the total activity after the first injection and decay. -/
theorem c8_bin_conservation_witness :
    ∃ st', simStep cTable id cSource 1 0 initState = .ok st' ∧
      ((0 : ℤ) % 1 = 0 → ∃ b : Bins,
        st'.output = initState.output ++ [(0, b)] ∧
        b.total = totalActivity (id (addInv initState.inventory cSource))) :=
  c8_bin_conservation cTable id cSource 1 0 initState (by norm_num)
    (by
      intro p hp
      norm_num [addInv, alookup, setAct, cSource, initState] at hp
      exact ⟨1, by rw [hp]; rfl⟩)

/-- Claim C9: the output file starts unwritten, every materialized step
rewrites it to hold exactly all rows produced so far (newest last), and
non-materialized steps leave it untouched — so at every point of a successful
run the file matches the rows accumulated so far. -/
theorem c9_incremental_durability :
    flushed initState ∧
    (∀ (table : GammaYieldTable) (oracle : Inventory → Inventory)
       (source : Inventory) (x : ℤ) (i : ℕ) (st st' : SimState),
       flushed st → simStep table oracle source x i st = .ok st' →
       flushed st' ∧
       ((i : ℤ) % x = 0 →
         st'.file = some st'.output ∧
         ∃ b : Bins, st'.output = st.output ++ [(i, b)])) ∧
    (∀ (table : GammaYieldTable) (oracle : Inventory → Inventory)
       (source : Inventory) (steps : ℚ) (x : ℤ) (i : ℕ) (st st' : SimState),
       flushed st → simRun table oracle source steps x i st = .ok st' →
       flushed st') := by
  have hstep : ∀ (table : GammaYieldTable) (oracle : Inventory → Inventory)
      (source : Inventory) (x : ℤ) (i : ℕ) (st st' : SimState),
      flushed st → simStep table oracle source x i st = .ok st' →
      flushed st' ∧
      ((i : ℤ) % x = 0 →
        st'.file = some st'.output ∧
        ∃ b : Bins, st'.output = st.output ++ [(i, b)]) := by
    intro table oracle source x i st st' hfl hs
    obtain ⟨-, nl2, cs2, bins, -, hst⟩ := simStep_ok_elim hs
    subst hst
    by_cases hmat : (i : ℤ) % x = 0
    · refine ⟨Or.inl ?_, fun _ => ⟨?_, bins, ?_⟩⟩ <;> simp only [if_pos hmat]
    · refine ⟨?_, fun h => absurd h hmat⟩
      simp only [if_neg hmat]
      exact hfl
  refine ⟨Or.inr ⟨rfl, rfl⟩, hstep, ?_⟩
  intro table oracle source steps x i st st' hfl hr
  refine simRun_preserves flushed ?_ (⌈steps⌉₊ - i) i st st' (le_refl _) hfl hr
  intro j s s' hP hs
  exact (hstep table oracle source x j s s' hP hs).1

/-- Witness for C9: the concrete two-step run ends with the file holding
exactly the accumulated rows. -/
theorem c9_incremental_durability_witness : flushed cSt2 :=
  c9_incremental_durability.2.2 cTable id cSource 2 1 0 initState cSt2
    (Or.inr ⟨rfl, rfl⟩) crun2

/-- Claim C10: in the final per-nuclide dense table every data row has exactly
one cell per universe nuclide, and the cell at column `j` of any row is the
snapshot activity (or 0) of the `j`-th nuclide of the one shared enumeration of
the universe that also forms the header — columns are always aligned. -/
theorem c10_column_alignment :
    ∀ (nl : List NuclideId) (contribs : List Snapshot),
      (∀ r ∈ denseTable nl contribs, r.length = nl.length) ∧
      (∀ k j : ℕ, k < contribs.length → j < nl.length →
        ((denseTable nl contribs).getD k []).getD j 0 =
          (alookup (nl.getD j "") (contribs.reverse.getD k [])).getD 0) := by
  intro nl contribs
  exact ⟨fun r hr => denseTable_row_length hr,
    fun k j hk hj => denseTable_cell nl contribs k j hk hj⟩

/-- Witness for C10: a concrete table with a nuclide absent from the snapshot:
column 0 reads 0, column 1 reads the recorded activity of its header nuclide. -/
theorem c10_column_alignment_witness :
    ((denseTable ["A", "B"] [[("B", 5)]]).getD 0 []).getD 0 0 =
      (alookup (["A", "B"].getD 0 "") ([[("B", 5)]].reverse.getD 0 [])).getD 0 ∧
    ((denseTable ["A", "B"] [[("B", 5)]]).getD 0 []).getD 1 0 =
      (alookup (["A", "B"].getD 1 "") ([[("B", 5)]].reverse.getD 0 [])).getD 0 :=
  ⟨(c10_column_alignment ["A", "B"] [[("B", 5)]]).2 0 0 (by norm_num) (by norm_num),
   (c10_column_alignment ["A", "B"] [[("B", 5)]]).2 0 1 (by norm_num) (by norm_num)⟩
